import Mathlib

/-!
Verification of the Hough transform implementation in
`src/TestHough/TestHough/Hough.cpp` (class `Hough`).

The embedding follows the C++ source line by line:

* `thetaMax`, `cosines`, `sines` model the constructor`s precomputed tables
  (`cosines[theta] = cosf(theta * M_PI / 180)`, likewise `sines`).
* `rhoRangeInit`, `centerXOf`, `centerYOf`, `normImg`, `accumVal`, `initHist`
  model `Hough::init`.
* `getLinePair` models `Hough::getLine`; `peakSegment` models the identical
  inline block of `Hough::getLines`.
* `getLinesPeaks` models the peak scan of `Hough::getLines`, including its
  row-pointer bookkeeping (`prev_row` / `curr_row` / `next_row`) and its
  fixed-column 3x3 window `prev_row[x]`, `curr_row[x]`, `next_row[x]` for
  `x ∈ {-1,0,1}`.  A read of `ptr(0)[-1]` lands one element before the
  matrix buffer; its (indeterminate) value is the parameter `oob`.  A read
  of `ptr(r)[-1]` for `r ≥ 1` lands on the last element of row `r-1` of the
  continuous matrix, which is how it is modelled.

C++ numeric conventions: machine ints are ℤ, float arithmetic is modelled
exactly (ℚ for the accumulator contents, ℝ where the trigonometric tables
enter), and float-to-int assignment truncates toward zero (`ctruncR`).
-/

/-- Modelled from the spec: `thetaMax` is declared in the missing header
`Hough.h`; the spec fixes it as "number of angle buckets, one degree per
bucket by convention", default 180. -/
def thetaMax : ℕ := 180

/-- Truncation toward zero of a real number, the semantics of a C++
float-to-int conversion. -/
noncomputable def ctruncR (x : ℝ) : ℤ := if 0 ≤ x then ⌊x⌋ else -⌊-x⌋

/-- Truncation toward zero of a rational number. -/
def ctruncQ (q : ℚ) : ℤ := if 0 ≤ q then ⌊q⌋ else -⌊-q⌋

/-- Constructor table: `cosines[theta] = cosf(theta * M_PI / 180.0)`. -/
noncomputable def cosines (θ : ℕ) : ℝ := Real.cos (θ * Real.pi / 180)

/-- Constructor table: `sines[theta] = sinf(theta * M_PI / 180.0)`. -/
noncomputable def sines (θ : ℕ) : ℝ := Real.sin (θ * Real.pi / 180)

/-- The literal `0.70710678` from `Hough::init` ("SQRT(2.0)/2.0"). -/
def houghScale : ℚ := 70710678 / 100000000

/-- An input image: dimensions and 8-bit pixel values. -/
structure Image where
  w : ℕ
  h : ℕ
  pix : ℕ → ℕ → ℕ

/-- Row-major list of in-bounds pixel coordinates `(x, y)`, `y` outer as in
the loops of `Hough::init`. -/
def pixList (img : Image) : List (ℕ × ℕ) :=
  (List.range img.h).flatMap (fun y => (List.range img.w).map (fun x => (x, y)))

/-- All in-bounds pixel values of the image. -/
def pixVals (img : Image) : List ℕ :=
  (pixList img).map (fun p => img.pix p.1 p.2)

/-- Largest pixel value (`cv::minMaxLoc` result used by `normalize`). -/
def imgMax (img : Image) : ℕ := (pixVals img).foldl max 0

/-- Smallest pixel value of the image. -/
def imgMin (img : Image) : ℕ := (pixVals img).foldl min (imgMax img)

/-- Modelled from the OpenCV call `normalize(src, image, 0, 255, NORM_MINMAX)`:
each value is stretched by `(v - min) * 255 / (max - min)` and rounded to the
nearest integer; a constant image (max = min) produces 0 (the NaN scale
saturates to 0). -/
def normImg (img : Image) (x y : ℕ) : ℕ :=
  if imgMax img = imgMin img then 0
  else (round (((img.pix x y : ℚ) - (imgMin img : ℚ)) * 255 /
      ((imgMax img : ℚ) - (imgMin img : ℚ)))).toNat

/-- Modelled from the spec: the header stores `rhoRange` in an integer
member ("rhoRange = round(max(w,h) * sqrt(2)/2)" in the spec`s data model),
so the float product `MAX(cols, rows) * 0.70710678` of `Hough::init`
truncates on assignment; the product is nonnegative, so truncation is the
floor. -/
def rhoRangeInit (w h : ℕ) : ℤ := ⌊(max w h : ℚ) * houghScale⌋

/-- From `Hough::init`: `centerX = image.cols / 2` (C++ int division). -/
def centerXOf (w : ℕ) : ℤ := (w : ℤ) / 2

/-- From `Hough::init`: `centerY = image.rows / 2` (C++ int division). -/
def centerYOf (h : ℕ) : ℤ := (h : ℤ) / 2

/-- From `Hough::init`: `r = dx * cosines[theta] + dy * sines[theta]` and
`rho_index = rhoRange + r` (float-to-int truncation), with
`dx = x - centerX`, `dy = y - centerY`. -/
noncomputable def rhoIdxAt (rr cX cY : ℤ) (x y θ : ℕ) : ℤ :=
  ctruncR ((rr : ℝ) + (((x : ℝ) - (cX : ℝ)) * cosines θ + ((y : ℝ) - (cY : ℝ)) * sines θ))

/-- The accumulator index computed by `Hough::init` for pixel `(x, y)` of a
`w × h` image at angle step `θ`. -/
noncomputable def rhoIndexInit (w h x y θ : ℕ) : ℤ :=
  rhoIdxAt (rhoRangeInit w h) (centerXOf w) (centerYOf h) x y θ

/-- One vote: `accum.at<float>(rho_index, theta)++`. -/
def bump (b : ℤ → ℤ → ℚ) (i j : ℤ) : ℤ → ℤ → ℚ :=
  fun i' j' => if i' = i ∧ j' = j then b i' j' + 1 else b i' j'

/-- The accumulation loop of `Hough::init`: every pixel with nonzero
normalized value votes once per angle step. -/
noncomputable def accumVal (img : Image) : ℤ → ℤ → ℚ :=
  (pixList img).foldl
    (fun a p =>
      if normImg img p.1 p.2 = 0 then a
      else (List.range thetaMax).foldl
        (fun b θ =>
          bump b (rhoIdxAt (rhoRangeInit img.w img.h) (centerXOf img.w)
            (centerYOf img.h) p.1 p.2 θ) (θ : ℤ)) a)
    (fun _ _ => 0)

/-- A dense 2D accumulator: `Mat` of `rows × cols` float cells.  `val` is a
total function; only arguments inside the bounds correspond to matrix
memory. -/
structure Histogram where
  rows : ℕ
  cols : ℕ
  val : ℤ → ℤ → ℚ

/-- The state `Hough::init` leaves behind: `accum = Mat::zeros(rhoRange * 2,
thetaMax, CV_32FC1)` filled by the accumulation loop. -/
noncomputable def initHist (img : Image) : Histogram :=
  ⟨(2 * rhoRangeInit img.w img.h).toNat, thetaMax, accumVal img⟩

/-- Member state consumed by the line mapping: `imageSize.width`, `rhoRange`,
`centerX`, `centerY` as set by `Hough::init`. -/
structure HoughState where
  width : ℕ
  rhoRange : ℤ
  centerX : ℤ
  centerY : ℤ

/-- From `Hough::getLine`: endpoints of the line for `(rho_index, theta)`,
with each `Point::y` assignment truncating the float expression. -/
noncomputable def getLinePair (S : HoughState) (rho_index θ : ℕ) : (ℤ × ℤ) × (ℤ × ℤ) :=
  let rho : ℝ := (rho_index : ℝ) - (S.rhoRange : ℝ)
  let p1x : ℤ := 0
  let p1y : ℤ := ctruncR ((rho - ((p1x : ℝ) - (S.centerX : ℝ)) * cosines θ) / sines θ + (S.centerY : ℝ))
  let p2x : ℤ := (S.width : ℤ)
  let p2y : ℤ := ctruncR ((rho - ((p2x : ℝ) - (S.centerX : ℝ)) * cosines θ) / sines θ + (S.centerY : ℝ))
  ((p1x, p1y), (p2x, p2y))

/-- From the emission block of `Hough::getLines`: the segment pushed for a
local maximum at `(rho_index, theta)` (the inline copy of the `getLine`
formula). -/
noncomputable def peakSegment (S : HoughState) (rho_index θ : ℕ) : (ℤ × ℤ) × (ℤ × ℤ) :=
  let rho : ℝ := (rho_index : ℝ) - (S.rhoRange : ℝ)
  let p1x : ℤ := 0
  let p1y : ℤ := ctruncR ((rho - ((p1x : ℝ) - (S.centerX : ℝ)) * cosines θ) / sines θ + (S.centerY : ℝ))
  let p2x : ℤ := (S.width : ℤ)
  let p2y : ℤ := ctruncR ((rho - ((p2x : ℝ) - (S.centerX : ℝ)) * cosines θ) / sines θ + (S.centerY : ℝ))
  ((p1x, p1y), (p2x, p2y))

/-- From `Hough::getLines`: `accum.copyTo(thresholded, accum >= thresh)` —
cells `≥ thresh` are kept, the rest are zero (the freshly reallocated
destination is zero-initialized). -/
def thresholdH (H : Histogram) (t : ℤ) : Histogram :=
  ⟨H.rows, H.cols, fun i j => if (t : ℚ) ≤ H.val i j then H.val i j else 0⟩

/-- Memory read `ptr(r)[c]` on the continuous thresholded matrix: column `-1`
of row `r ≥ 1` is the last element of row `r - 1`; column `-1` of row `0` is
the indeterminate byte before the buffer, the parameter `oob`. -/
def cellAt (oob : ℚ) (T : Histogram) (r : ℕ) (c : ℤ) : ℚ :=
  if c = -1 then (if r = 0 then oob else T.val ((r : ℤ) - 1) ((T.cols : ℤ) - 1))
  else T.val (r : ℤ) c

/-- The scan `for (int x = -1; x < 2; x++) { max = MAX(max, prev_row[x]);
max = MAX(max, curr_row[x]); max = MAX(max, next_row[x]); }` of
`Hough::getLines`, seeded with `curr_row[theta]`. -/
def nineMax (oob : ℚ) (T : Histogram) (p c n : ℕ) (seed : ℚ) : ℚ :=
  ([-1, 0, 1] : List ℤ).foldl
    (fun m x => max (max (max m (cellAt oob T p x)) (cellAt oob T c x)) (cellAt oob T n x))
    seed

/-- The inner `tbb::parallel_for(1, thetaMax - 1, 1, ...)` of
`Hough::getLines`, linearized in ascending `theta`: a coordinate is emitted
when `curr_row[theta]` is nonzero and the scanned maximum equals it. -/
def thetaScan (oob : ℚ) (T : Histogram) (p c n rho : ℕ) : List (ℕ × ℕ) :=
  (List.range' 1 (thetaMax - 2)).filterMap (fun (θ : ℕ) =>
    let center := cellAt oob T c (θ : ℤ)
    if center ≠ 0 ∧ nineMax oob T p c n center = center then some (rho, θ) else none)

/-- The outer row loop of `Hough::getLines` with its pointer bookkeeping:
after scanning row index `rho`, the pointers become
`(prev, curr, next) := (curr, next, ptr(rho + 1))`. -/
def rowScan (oob : ℚ) (T : Histogram) : List ℕ → ℕ × ℕ × ℕ → List (ℕ × ℕ)
  | [], _ => []
  | rho :: rest, (p, c, n) => thetaScan oob T p c n rho ++ rowScan oob T rest (c, n, rho + 1)

/-- The peak coordinates `(rho_index, theta)` for which `Hough::getLines`
pushes a segment: empty for `thresh < 1`, otherwise the row loop over
`rho_index ∈ [1, rows - 2]` starting from pointers `ptr(0), ptr(1), ptr(2)`. -/
def getLinesPeaks (oob : ℚ) (H : Histogram) (t : ℤ) : List (ℕ × ℕ) :=
  if t < 1 then [] else rowScan oob (thresholdH H t) (List.range' 1 (H.rows - 2)) (0, 1, 2)

/-- The full result of `Hough::getLines`: the segment of every emitted peak. -/
noncomputable def getLinesSegs (oob : ℚ) (S : HoughState) (H : Histogram) (t : ℤ) :
    List ((ℤ × ℤ) × (ℤ × ℤ)) :=
  (getLinesPeaks oob H t).map (fun q => peakSegment S q.1 q.2)

/-- The `HoughState` left behind by `Hough::init` on a given image. -/
def initState (img : Image) : HoughState :=
  ⟨img.w, rhoRangeInit img.w img.h, centerXOf img.w, centerYOf img.h⟩

/-! Concrete histograms used as test inputs below. -/

/-- A 4 × 180 thresholded-histogram scenario: a candidate cell of value 5 at
`(rho_index, theta) = (2, 10)` whose centered 3x3 neighborhood is all zero,
plus an unrelated large value 100 far away at column 0 of the same row. -/
def exHistC1 : Histogram :=
  ⟨4, thetaMax, fun i j => if i = 2 ∧ j = 0 then 100 else if i = 2 ∧ j = 10 then 5 else 0⟩

/-- A 3 × 180 histogram with a single nonzero cell at `(1, 5)`. -/
def exHistC9 : Histogram :=
  ⟨3, thetaMax, fun i j => if i = 1 ∧ j = 5 then 7 else 0⟩

/-- C7: the endpoints computed by `getLine(rho_index, theta)` coincide
bit-for-bit with the segment that `getLines` embeds for a peak at the same
`(rho_index, theta)` — both sites evaluate the same formula with the same
truncation. -/
theorem getLine_eq_peakSegment :
    ∀ (S : HoughState) (rho_index θ : ℕ), getLinePair S rho_index θ = peakSegment S rho_index θ :=
  fun _ _ _ => rfl

/-- C6: over the angle domain `[0, thetaMax)`, the divisor `sines[theta]`
of the line mapping vanishes exactly at `theta = 0`; in particular it is
nonzero for every `theta` in `[1, thetaMax - 2]`, the values emitted by peak
extraction, where the (unguarded) division is well defined. -/
theorem sines_eq_zero_iff (θ : ℕ) (hθ : θ < thetaMax) : sines θ = 0 ↔ θ = 0 := by
  have hθ' : (θ : ℝ) < 180 := by
    have : θ < 180 := hθ
    exact_mod_cast this
  have hpi := Real.pi_pos
  constructor
  · intro h
    by_contra hne
    have h1 : (1 : ℝ) ≤ (θ : ℝ) := by
      have : 1 ≤ θ := Nat.one_le_iff_ne_zero.mpr hne
      exact_mod_cast this
    have hpos : 0 < (θ : ℝ) * Real.pi / 180 := by nlinarith
    have hlt : (θ : ℝ) * Real.pi / 180 < Real.pi := by nlinarith
    have := Real.sin_pos_of_pos_of_lt_pi hpos hlt
    rw [sines] at h
    linarith
  · intro h
    subst h
    simp [sines]

/-- Witness for C6 at the concrete angles 0 and 90. -/
theorem sines_eq_zero_iff_witness : sines 0 = 0 ∧ ¬ sines 90 = 0 :=
  ⟨(sines_eq_zero_iff 0 (by norm_num [thetaMax])).mpr rfl,
   fun hzero => absurd ((sines_eq_zero_iff 90 (by norm_num [thetaMax])).mp hzero) (by decide)⟩

/-- C4 counterexample: for a 100 × 100 image the code stores
`rhoRange = 70` (truncation of `100 * 0.70710678`), while
`round(max(w,h) * sqrt(2)/2) = round(50 * sqrt 2) = 71`. -/
theorem rhoRange_ne_round_sqrt2 :
    rhoRangeInit 100 100 = 70 ∧ round ((100 : ℝ) * Real.sqrt 2 / 2) = 71 ∧
    ¬ (rhoRangeInit 100 100 : ℝ) = round ((100 : ℝ) * Real.sqrt 2 / 2) := by
  have h1 : rhoRangeInit 100 100 = 70 := by norm_num [rhoRangeInit, houghScale]
  have hlb : (141 / 100 : ℝ) ≤ Real.sqrt 2 := by
    rw [Real.le_sqrt' (by norm_num)]
    norm_num
  have hub : Real.sqrt 2 < 143 / 100 := by
    rw [Real.sqrt_lt' (by norm_num)]
    norm_num
  have h2 : round ((100 : ℝ) * Real.sqrt 2 / 2) = 71 := by
    rw [round_eq, Int.floor_eq_iff]
    constructor
    · push_cast
      nlinarith
    · push_cast
      nlinarith
  refine ⟨h1, h2, ?_⟩
  rw [h1, h2]
  norm_num

/-- C4 amended: after `init` on a `w × h` image the stored `rhoRange` is the
truncation (toward zero, not a rounding) of `max(w,h) * 0.70710678`, and the
histogram has exactly `2 * rhoRange` rows and `thetaMax` columns. -/
theorem init_histogram_shape (w h : ℕ) (f : ℕ → ℕ → ℕ) :
    ((initHist ⟨w, h, f⟩).rows : ℤ) = 2 * rhoRangeInit w h ∧
    (initHist ⟨w, h, f⟩).cols = thetaMax ∧
    rhoRangeInit w h = ctruncQ ((max w h : ℚ) * houghScale) := by
  have hge : (0 : ℚ) ≤ (max w h : ℚ) * houghScale := by
    have : (0 : ℚ) ≤ (max w h : ℚ) := by positivity
    have hs : (0 : ℚ) ≤ houghScale := by norm_num [houghScale]
    positivity
  have hrr : 0 ≤ rhoRangeInit w h := Int.floor_nonneg.mpr hge
  refine ⟨?_, rfl, ?_⟩
  · show ((2 * rhoRangeInit w h).toNat : ℤ) = 2 * rhoRangeInit w h
    exact Int.toNat_of_nonneg (by omega)
  · rw [ctruncQ, if_pos hge]
    rfl

/-- C3: on a zero-size image `init` produces a zero-row histogram, and
`getLines` with any threshold `≥ 1` returns the empty list (no exception,
no fault: the row loop never runs). -/
theorem empty_image_init_getLines (f : ℕ → ℕ → ℕ) (oob : ℚ) (t : ℤ) (ht : 1 ≤ t) :
    (initHist ⟨0, 0, f⟩).rows = 0 ∧
    getLinesPeaks oob (initHist ⟨0, 0, f⟩) t = [] ∧
    getLinesSegs oob (initState ⟨0, 0, f⟩) (initHist ⟨0, 0, f⟩) t = [] := by
  have hrows : (initHist ⟨0, 0, f⟩).rows = 0 := by
    show (2 * rhoRangeInit 0 0).toNat = 0
    norm_num [rhoRangeInit, houghScale]
  have hpeaks : getLinesPeaks oob (initHist ⟨0, 0, f⟩) t = [] := by
    rw [getLinesPeaks, if_neg (by omega), hrows]
    rfl
  exact ⟨hrows, hpeaks, by rw [getLinesSegs, hpeaks]; rfl⟩

/-- Witness for C3: the all-zero 0 × 0 image with threshold 1. -/
theorem empty_image_init_getLines_witness :
    (initHist ⟨0, 0, fun _ _ => 0⟩).rows = 0 ∧
    getLinesPeaks 0 (initHist ⟨0, 0, fun _ _ => 0⟩) 1 = [] ∧
    getLinesSegs 0 (initState ⟨0, 0, fun _ _ => 0⟩) (initHist ⟨0, 0, fun _ _ => 0⟩) 1 = [] :=
  empty_image_init_getLines (fun _ _ => 0) 0 1 (by norm_num)

/-- C2 failing input: in a 100 × 100 image, the pixel `(x, y) = (0, 99)`
(offsets `dx = -50`, `dy = 49`) at `theta = 135` yields
`rho_index = int(70 + 99 * sqrt(2)/2) = 140 = 2 * rhoRange`, one row past
the end of the histogram, so the increment in `init` indexes out of
bounds. -/
theorem rhoIndex_overflow :
    rhoRangeInit 100 100 = 70 ∧
    rhoIndexInit 100 100 0 99 135 = 2 * rhoRangeInit 100 100 ∧
    ¬ rhoIndexInit 100 100 0 99 135 < 2 * rhoRangeInit 100 100 := by
  have hrr : rhoRangeInit 100 100 = 70 := by norm_num [rhoRangeInit, houghScale]
  have hang : (135 : ℝ) * Real.pi / 180 = Real.pi - Real.pi / 4 := by ring
  have hcos : cosines 135 = -(Real.sqrt 2 / 2) := by
    show Real.cos ((135 : ℕ) * Real.pi / 180) = -(Real.sqrt 2 / 2)
    push_cast
    rw [hang, Real.cos_pi_sub, Real.cos_pi_div_four]
  have hsin : sines 135 = Real.sqrt 2 / 2 := by
    show Real.sin ((135 : ℕ) * Real.pi / 180) = Real.sqrt 2 / 2
    push_cast
    rw [hang, Real.sin_pi_sub, Real.sin_pi_div_four]
  have hlb : (140 / 99 : ℝ) ≤ Real.sqrt 2 := by
    rw [Real.le_sqrt' (by norm_num)]
    norm_num
  have hub : Real.sqrt 2 < 142 / 99 := by
    rw [Real.sqrt_lt' (by norm_num)]
    norm_num
  have hcX : centerXOf 100 = 50 := by norm_num [centerXOf]
  have hcY : centerYOf 100 = 50 := by norm_num [centerYOf]
  have hexpr : ((rhoRangeInit 100 100 : ℝ) +
      (((0 : ℕ) : ℝ) - (centerXOf 100 : ℝ)) * cosines 135 +
      ((((99 : ℕ) : ℝ) - (centerYOf 100 : ℝ)) * sines 135)) = 70 + 99 / 2 * Real.sqrt 2 := by
    rw [hrr, hcX, hcY, hcos, hsin]
    push_cast
    ring
  have hidx : rhoIndexInit 100 100 0 99 135 = 140 := by
    rw [rhoIndexInit, rhoIdxAt, ctruncR]
    have hval : ((rhoRangeInit 100 100 : ℝ) +
        ((((0 : ℕ) : ℝ) - (centerXOf 100 : ℝ)) * cosines 135 +
         (((99 : ℕ) : ℝ) - (centerYOf 100 : ℝ)) * sines 135)) = 70 + 99 / 2 * Real.sqrt 2 := by
      rw [← hexpr]
      ring
    rw [hval, if_pos (by nlinarith), Int.floor_eq_iff]
    constructor
    · push_cast
      nlinarith
    · push_cast
      nlinarith
  rw [hidx, hrr]
  norm_num

/-- C1: on `exHistC1` with threshold 1, the thresholded cell `(2, 10)` is 5,
its whole centered 3x3 neighborhood `{1..3} × {9..11}` is zero — so by the
claim a line must be emitted for `(2, 10)` — yet the code emits nothing for
any value of the out-of-bounds byte, because its window reads the fixed
columns `-1..1` (where `curr_row[0] = 100` suppresses the candidate) instead
of the columns centered on `theta`. -/
theorem getLines_fixed_column_window (oob : ℚ) :
    (thresholdH exHistC1 1).val 2 10 = 5 ∧
    (thresholdH exHistC1 1).val 1 9 = 0 ∧ (thresholdH exHistC1 1).val 1 10 = 0 ∧
    (thresholdH exHistC1 1).val 1 11 = 0 ∧ (thresholdH exHistC1 1).val 2 9 = 0 ∧
    (thresholdH exHistC1 1).val 2 11 = 0 ∧ (thresholdH exHistC1 1).val 3 9 = 0 ∧
    (thresholdH exHistC1 1).val 3 10 = 0 ∧ (thresholdH exHistC1 1).val 3 11 = 0 ∧
    getLinesPeaks oob exHistC1 1 = [] := by
  refine ⟨rfl, rfl, rfl, rfl, rfl, rfl, rfl, rfl, rfl, ?_⟩
  set_option maxRecDepth 100000 in rfl

/-- Membership in the row scan: every emitted coordinate pairs a row index
from the scanned list with a column index from `[1, thetaMax - 2]`. -/
lemma mem_rowScan {oob : ℚ} {T : Histogram} (L : List ℕ) (ptrs : ℕ × ℕ × ℕ)
    (q : ℕ × ℕ) (hq : q ∈ rowScan oob T L ptrs) :
    q.1 ∈ L ∧ q.2 ∈ List.range' 1 (thetaMax - 2) := by
  induction L generalizing ptrs with
  | nil => simp [rowScan] at hq
  | cons rho rest ih =>
    obtain ⟨p, c, n⟩ := ptrs
    rw [rowScan, List.mem_append] at hq
    rcases hq with hq | hq
    · rw [thetaScan, List.mem_filterMap] at hq
      obtain ⟨θ, hθ, heq⟩ := hq
      by_cases hcond : cellAt oob T c (θ : ℤ) ≠ 0 ∧
          nineMax oob T p c n (cellAt oob T c (θ : ℤ)) = cellAt oob T c (θ : ℤ)
      · rw [if_pos hcond] at heq
        obtain ⟨h1, h2⟩ := Prod.mk.injEq .. ▸ Option.some.injEq .. ▸ heq
        constructor
        · simp [← h1]
        · rw [← h2]
          exact hθ
      · rw [if_neg hcond] at heq
        exact absurd heq (by simp)
    · obtain ⟨ha, hb⟩ := ih _ hq
      exact ⟨List.mem_cons_of_mem _ ha, hb⟩

/-- C9: every coordinate emitted by `getLines` avoids the boundary rows and
columns: its `rho_index` is neither 0 nor `rows - 1` and its `theta` is
neither 0 nor `thetaMax - 1`. -/
theorem peaks_boundary_exclusion (oob : ℚ) (H : Histogram) (t : ℤ) (q : ℕ × ℕ)
    (hq : q ∈ getLinesPeaks oob H t) :
    q.1 ≠ 0 ∧ q.1 ≠ H.rows - 1 ∧ q.2 ≠ 0 ∧ q.2 ≠ thetaMax - 1 := by
  rw [getLinesPeaks] at hq
  by_cases ht : t < 1
  · rw [if_pos ht] at hq
    exact absurd hq (by simp)
  · rw [if_neg ht] at hq
    obtain ⟨h1, h2⟩ := mem_rowScan _ _ _ hq
    rw [List.mem_range'] at h1 h2
    obtain ⟨i, hi, hqi⟩ := h1
    obtain ⟨k, hk, hqk⟩ := h2
    have hmax : thetaMax = 180 := rfl
    omega

/-- Witness for C9: on `exHistC9` with threshold 1 the peak `(1, 5)` is
emitted, and it avoids all four boundaries. -/
theorem peaks_boundary_exclusion_witness :
    (1, 5) ∈ getLinesPeaks 0 exHistC9 1 ∧
    ((1 : ℕ) ≠ 0 ∧ (1 : ℕ) ≠ exHistC9.rows - 1 ∧ (5 : ℕ) ≠ 0 ∧ (5 : ℕ) ≠ thetaMax - 1) :=
  ⟨by set_option maxRecDepth 100000 in decide,
   peaks_boundary_exclusion 0 exHistC9 1 (1, 5)
     (by set_option maxRecDepth 100000 in decide)⟩

/-- A coordinate pair is listed in `pixList` exactly when it is inside the
image bounds. -/
lemma mem_pixList (img : Image) (p : ℕ × ℕ) :
    p ∈ pixList img ↔ p.1 < img.w ∧ p.2 < img.h := by
  obtain ⟨a, b⟩ := p
  simp only [pixList, List.mem_flatMap, List.mem_map, List.mem_range]
  constructor
  · rintro ⟨y, hy, x, hx, hxy⟩
    obtain ⟨h1, h2⟩ := Prod.mk.injEq .. ▸ hxy
    subst h1
    subst h2
    exact ⟨hx, hy⟩
  · rintro ⟨ha, hb⟩
    exact ⟨b, hb, a, ha, rfl⟩

/-- The pixel coordinate list has no duplicates. -/
lemma nodup_pixList (img : Image) : (pixList img).Nodup := by
  rw [pixList, List.nodup_flatMap]
  constructor
  · intro y _
    exact (List.nodup_range _).map (fun a b hab => congrArg Prod.fst hab)
  · have : List.Pairwise (· ≠ ·) (List.range img.h) := List.nodup_range img.h
    refine this.imp ?_
    intro y1 y2 hne z hz1 hz2
    simp only [List.mem_map, List.mem_range] at hz1 hz2
    obtain ⟨x1, _, he1⟩ := hz1
    obtain ⟨x2, _, he2⟩ := hz2
    apply hne
    have := congrArg Prod.snd (he1.trans he2.symm)
    simpa using this

/-- Folding a step function that fixes the accumulator on every list element
returns the initial accumulator. -/
lemma foldl_skip {α β : Type} (step : α → β → α) (L : List β)
    (hstep : ∀ a b, b ∈ L → step a b = a) (a : α) : L.foldl step a = a := by
  induction L generalizing a with
  | nil => rfl
  | cons x xs ih =>
    rw [List.foldl_cons, hstep a x (by simp)]
    exact ih (fun a b hb => hstep a b (by simp [hb])) a

/-- Folding a step function over a list in which `c` occurs exactly once,
where the step fixes the accumulator off `c` and acts as `tf` at `c`,
computes `tf` of the initial accumulator. -/
lemma foldl_single {α β : Type} [DecidableEq β] (step : α → β → α) (tf : α → α) (c : β)
    (L : List β) (hcount : L.count c = 1)
    (hskip : ∀ a b, b ∈ L → b ≠ c → step a b = a)
    (hhit : ∀ a, step a c = tf a) (a : α) :
    L.foldl step a = tf a := by
  induction L generalizing a with
  | nil => simp at hcount
  | cons x xs ih =>
    by_cases hx : x = c
    · subst hx
      rw [List.foldl_cons, hhit]
      have h0 : xs.count x = 0 := by
        rw [List.count_cons_self] at hcount
        omega
      apply foldl_skip
      intro a b hb
      have hbc : b ≠ x := by
        intro he
        subst he
        rw [List.count_eq_zero] at h0
        exact h0 hb
      exact hskip a b (by simp [hb]) hbc
    · rw [List.foldl_cons, hskip a x (by simp) (by simpa using hx)]
      refine ih ?_ (fun a b hb hbc => hskip a b (by simp [hb]) hbc) a
      rwa [List.count_cons_of_ne (by simpa using Ne.symm hx)] at hcount

/-- Folding `min` never rises above the initial accumulator. -/
lemma foldl_min_le_init (L : List ℕ) (a : ℕ) : L.foldl min a ≤ a := by
  induction L generalizing a with
  | nil => simp
  | cons y ys ih => exact le_trans (ih (min a y)) (min_le_left a y)

/-- The fold of `min` is bounded by every member of the list. -/
lemma foldl_min_le {L : List ℕ} {x : ℕ} (hx : x ∈ L) (a : ℕ) : L.foldl min a ≤ x := by
  induction L generalizing a with
  | nil => simp at hx
  | cons y ys ih =>
    rw [List.foldl_cons]
    rcases List.mem_cons.mp hx with h | h
    · subst h
      exact le_trans (foldl_min_le_init ys (min a x)) (min_le_right a x)
    · exact ih h (min a y)

/-- Folding `max` never falls below the initial accumulator. -/
lemma init_le_foldl_max (L : List ℕ) (a : ℕ) : a ≤ L.foldl max a := by
  induction L generalizing a with
  | nil => simp
  | cons y ys ih => exact le_trans (le_max_left a y) (ih (max a y))

/-- Every member of the list is bounded by the fold of `max`. -/
lemma le_foldl_max {L : List ℕ} {x : ℕ} (hx : x ∈ L) (a : ℕ) : x ≤ L.foldl max a := by
  induction L generalizing a with
  | nil => simp at hx
  | cons y ys ih =>
    rw [List.foldl_cons]
    rcases List.mem_cons.mp hx with h | h
    · subst h
      exact le_trans (le_max_right a x) (init_le_foldl_max ys (max a x))
    · exact ih h (max a y)

/-- A common upper bound of the initial accumulator and all members bounds
the fold of `max`. -/
lemma foldl_max_le {L : List ℕ} {v : ℕ} (hl : ∀ x ∈ L, x ≤ v) {a : ℕ} (ha : a ≤ v) :
    L.foldl max a ≤ v := by
  induction L generalizing a with
  | nil => simpa
  | cons y ys ih =>
    rw [List.foldl_cons]
    exact ih (fun x hx => hl x (by simp [hx])) (max_le ha (hl y (by simp)))

/-- Effect of the per-pixel angle loop when every vote lands in row `rr`:
cell `(rr, θ)` gains one vote for each `θ < n`, all other cells are
untouched. -/
lemma thetaFold_val (rr : ℤ) (n : ℕ) (b0 : ℤ → ℤ → ℚ) (i j : ℤ) :
    ((List.range n).foldl (fun b (θ : ℕ) => bump b rr (θ : ℤ)) b0) i j =
      if i = rr ∧ 0 ≤ j ∧ j < n then b0 i j + 1 else b0 i j := by
  induction n with
  | zero =>
    simp only [List.range_zero, List.foldl_nil]
    rw [if_neg (by omega)]
  | succ m ih =>
    rw [List.range_succ, List.foldl_append]
    simp only [List.foldl_cons, List.foldl_nil, bump]
    by_cases hc : i = rr ∧ j = (m : ℤ)
    · rw [if_pos hc, ih, if_neg (by omega), if_pos (by push_cast; omega)]
    · rw [if_neg hc, ih]
      by_cases hd : i = rr ∧ 0 ≤ j ∧ j < m
      · rw [if_pos hd, if_pos (by push_cast at hd ⊢; omega)]
      · rw [if_neg hd, if_neg (by push_cast at hc hd ⊢; omega)]

/-- The index computed for the image-center pixel is exactly `rr` for every
angle step: both offsets vanish, so `r = 0` regardless of the table values. -/
lemma rhoIdxAt_center (rr : ℤ) (hrr : 0 ≤ rr) (w h θ : ℕ) :
    rhoIdxAt rr (centerXOf w) (centerYOf h) (w / 2) (h / 2) θ = rr := by
  have hxZ : ((w / 2 : ℕ) : ℤ) = centerXOf w := by
    rw [centerXOf]
    exact_mod_cast Int.ofNat_ediv w 2
  have hyZ : ((h / 2 : ℕ) : ℤ) = centerYOf h := by
    rw [centerYOf]
    exact_mod_cast Int.ofNat_ediv h 2
  have hx : ((w / 2 : ℕ) : ℝ) = ((centerXOf w : ℤ) : ℝ) := by
    rw [← hxZ, Int.cast_natCast]
  have hy : ((h / 2 : ℕ) : ℝ) = ((centerYOf h : ℤ) : ℝ) := by
    rw [← hyZ, Int.cast_natCast]
  rw [rhoIdxAt, hx, hy, sub_self, sub_self, zero_mul, zero_mul, add_zero, add_zero, ctruncR,
    if_pos (by exact_mod_cast hrr), Int.floor_intCast]

/-- C8: for an image whose only nonzero pixel is the image center, `init`
puts exactly one vote in every histogram cell of row `rhoRange` and leaves
every other cell of the histogram at zero. -/
theorem single_center_pixel_votes (img : Image) (hw : 1 ≤ img.w) (hh : 1 ≤ img.h)
    (hc : img.pix (img.w / 2) (img.h / 2) ≠ 0)
    (hz : ∀ x y, x < img.w → y < img.h → ¬(x = img.w / 2 ∧ y = img.h / 2) → img.pix x y = 0) :
    ∀ i j : ℤ, 0 ≤ i → i < ((initHist img).rows : ℤ) → 0 ≤ j → j < ((initHist img).cols : ℤ) →
      (initHist img).val i j = if i = rhoRangeInit img.w img.h then 1 else 0 := by
  obtain ⟨w, h, pix⟩ := img
  simp only at hc hz hw hh
  intro i j hi0 hir hj0 hjc
  by_cases hsz : w = 1 ∧ h = 1
  · exfalso
    obtain ⟨h1, h2⟩ := hsz
    subst h1
    subst h2
    have hrows : (initHist ⟨1, 1, pix⟩).rows = 0 := by
      show (2 * rhoRangeInit 1 1).toNat = 0
      norm_num [rhoRangeInit, houghScale]
    rw [hrows] at hir
    omega
  · have hrr0 : 0 ≤ rhoRangeInit w h := by
      refine Int.floor_nonneg.mpr ?_
      rw [houghScale]
      positivity
    have hcx : w / 2 < w := Nat.div_lt_self (by omega) one_lt_two
    have hcy : h / 2 < h := Nat.div_lt_self (by omega) one_lt_two
    have hcmem : ((w / 2 : ℕ), (h / 2 : ℕ)) ∈ pixList ⟨w, h, pix⟩ :=
      (mem_pixList _ _).mpr ⟨hcx, hcy⟩
    have hmem00 : ((0 : ℕ), (0 : ℕ)) ∈ pixList ⟨w, h, pix⟩ :=
      (mem_pixList _ _).mpr ⟨show 0 < w by omega, show 0 < h by omega⟩
    have hpix00 : pix 0 0 = 0 := hz 0 0 (by omega) (by omega) (by omega)
    have h0mem : (0 : ℕ) ∈ pixVals ⟨w, h, pix⟩ := by
      rw [pixVals, List.mem_map]
      exact ⟨(0, 0), hmem00, hpix00⟩
    have hvmem : pix (w / 2) (h / 2) ∈ pixVals ⟨w, h, pix⟩ := by
      rw [pixVals, List.mem_map]
      exact ⟨((w / 2 : ℕ), (h / 2 : ℕ)), hcmem, rfl⟩
    have hallle : ∀ u ∈ pixVals ⟨w, h, pix⟩, u ≤ pix (w / 2) (h / 2) := by
      intro u hu
      rw [pixVals, List.mem_map] at hu
      obtain ⟨p, hp, hup⟩ := hu
      rw [mem_pixList] at hp
      rw [← hup]
      show pix p.1 p.2 ≤ pix (w / 2) (h / 2)
      by_cases hpc : p.1 = w / 2 ∧ p.2 = h / 2
      · rw [hpc.1, hpc.2]
      · rw [hz p.1 p.2 hp.1 hp.2 hpc]
        omega
    have hM : imgMax ⟨w, h, pix⟩ = pix (w / 2) (h / 2) :=
      le_antisymm (foldl_max_le hallle (by omega)) (le_foldl_max hvmem 0)
    have hm : imgMin ⟨w, h, pix⟩ = 0 :=
      Nat.le_zero.mp (foldl_min_le h0mem (imgMax ⟨w, h, pix⟩))
    have hMm : imgMax ⟨w, h, pix⟩ ≠ imgMin ⟨w, h, pix⟩ := by
      rw [hM, hm]
      omega
    have hgc : normImg ⟨w, h, pix⟩ (w / 2) (h / 2) = 255 := by
      have hvQ : ((pix (w / 2) (h / 2) : ℚ)) ≠ 0 := by exact_mod_cast hc
      have hstep : (round (((pix (w / 2) (h / 2) : ℚ) - (imgMin ⟨w, h, pix⟩ : ℚ)) * 255 /
          ((imgMax ⟨w, h, pix⟩ : ℚ) - (imgMin ⟨w, h, pix⟩ : ℚ)))).toNat = 255 := by
        rw [hM, hm]
        have hq : ((pix (w / 2) (h / 2) : ℚ) - ((0 : ℕ) : ℚ)) * 255 /
            ((pix (w / 2) (h / 2) : ℚ) - ((0 : ℕ) : ℚ)) = 255 := by
          push_cast
          field_simp
        rw [hq, show round (255 : ℚ) = 255 by norm_num [round_eq]]
        rfl
      rw [normImg, if_neg hMm]
      exact hstep
    have hg0 : ∀ p : ℕ × ℕ, p ∈ pixList ⟨w, h, pix⟩ → p ≠ ((w / 2 : ℕ), (h / 2 : ℕ)) →
        normImg ⟨w, h, pix⟩ p.1 p.2 = 0 := by
      intro p hp hpc
      rw [mem_pixList] at hp
      have hpz : pix p.1 p.2 = 0 := by
        refine hz p.1 p.2 hp.1 hp.2 ?_
        intro hcc
        exact hpc (Prod.ext hcc.1 hcc.2)
      have hstep : (round (((pix p.1 p.2 : ℚ) - (imgMin ⟨w, h, pix⟩ : ℚ)) * 255 /
          ((imgMax ⟨w, h, pix⟩ : ℚ) - (imgMin ⟨w, h, pix⟩ : ℚ)))).toNat = 0 := by
        rw [hpz, hm]
        norm_num
      rw [normImg, if_neg hMm]
      exact hstep
    have hcount := List.count_eq_one_of_mem (nodup_pixList ⟨w, h, pix⟩) hcmem
    have hid : ∀ θ : ℕ, rhoIdxAt (rhoRangeInit w h) (centerXOf w) (centerYOf h)
        (w / 2) (h / 2) θ = rhoRangeInit w h := fun θ => rhoIdxAt_center _ hrr0 w h θ
    have htf : ∀ a : ℤ → ℤ → ℚ,
        (if normImg ⟨w, h, pix⟩ (w / 2) (h / 2) = 0 then a
         else (List.range thetaMax).foldl
            (fun b (θ : ℕ) => bump b (rhoIdxAt (rhoRangeInit w h) (centerXOf w)
              (centerYOf h) (w / 2) (h / 2) θ) (θ : ℤ)) a)
        = (List.range thetaMax).foldl (fun b (θ : ℕ) => bump b (rhoRangeInit w h) (θ : ℤ)) a := by
      intro a
      rw [if_neg (by rw [hgc]; omega)]
      simp only [hid]
    have hfold : accumVal ⟨w, h, pix⟩ =
        (List.range thetaMax).foldl (fun b (θ : ℕ) => bump b (rhoRangeInit w h) (θ : ℤ))
          (fun _ _ => 0) := by
      unfold accumVal
      set_option maxRecDepth 10000 in
      exact foldl_single
        (fun (a : ℤ → ℤ → ℚ) (p : ℕ × ℕ) =>
          if normImg ⟨w, h, pix⟩ p.1 p.2 = 0 then a
          else (List.range thetaMax).foldl
            (fun b (θ : ℕ) => bump b (rhoIdxAt (rhoRangeInit w h) (centerXOf w)
              (centerYOf h) p.1 p.2 θ) (θ : ℤ)) a)
        (fun a => (List.range thetaMax).foldl
          (fun b (θ : ℕ) => bump b (rhoRangeInit w h) (θ : ℤ)) a)
        ((w / 2 : ℕ), (h / 2 : ℕ)) (pixList ⟨w, h, pix⟩) hcount
        (fun a p hp hpc => if_pos (hg0 p hp hpc)) htf (fun _ _ => 0)
    have hcols : j < (thetaMax : ℤ) := hjc
    show accumVal ⟨w, h, pix⟩ i j = if i = rhoRangeInit w h then 1 else 0
    rw [hfold, thetaFold_val]
    by_cases hi : i = rhoRangeInit w h
    · rw [if_pos ⟨hi, hj0, hcols⟩, if_pos hi]
      norm_num
    · rw [if_neg (by tauto), if_neg hi]

/-- Witness for C8: in the 2 × 2 image whose only nonzero pixel (value 7)
sits at the center `(1, 1)`, histogram row `rhoRange = 1` holds a vote at
column 0 and row 0 holds none. -/
theorem single_center_pixel_votes_witness :
    (initHist ⟨2, 2, fun x y => if x = 1 ∧ y = 1 then 7 else 0⟩).val 1 0 = 1 ∧
    (initHist ⟨2, 2, fun x y => if x = 1 ∧ y = 1 then 7 else 0⟩).val 0 0 = 0 := by
  have hrr : rhoRangeInit 2 2 = 1 := by norm_num [rhoRangeInit, houghScale]
  have hrows : (1 : ℤ) < ((initHist ⟨2, 2, fun x y => if x = 1 ∧ y = 1 then 7 else 0⟩).rows : ℤ) := by
    norm_num [initHist, rhoRangeInit, houghScale]
  have hcols : (0 : ℤ) < ((initHist ⟨2, 2, fun x y => if x = 1 ∧ y = 1 then 7 else 0⟩).cols : ℤ) := by
    norm_num [initHist, thetaMax]
  constructor
  · have h1 := single_center_pixel_votes ⟨2, 2, fun x y => if x = 1 ∧ y = 1 then 7 else 0⟩
      (by norm_num) (by norm_num) (by norm_num) (fun x y _ _ hne => if_neg hne)
      1 0 (by norm_num) hrows (by norm_num) hcols
    rwa [if_pos (by rw [hrr])] at h1
  · have h0 := single_center_pixel_votes ⟨2, 2, fun x y => if x = 1 ∧ y = 1 then 7 else 0⟩
      (by norm_num) (by norm_num) (by norm_num) (fun x y _ _ hne => if_neg hne)
      0 0 (by norm_num) (by omega) (by norm_num) hcols
    rwa [if_neg (by rw [hrr]; norm_num)] at h0
